import Mathlib

/-!
Verification of the secure workspace access layer of the viagen dev server.

The definitions below are a shallow embedding of the TypeScript sources
src/files.ts and src/git.ts.  Filesystem state is passed explicitly as an
oracle, the git command-line interface is passed as an environment record of
results, and the JavaScript and Node built-ins used by the sources
(String.prototype.startsWith, path.resolve, path.join, path.relative,
String.prototype.split, Array.prototype.join) are modelled as executable
functions over character lists.  External effects (process spawns and
filesystem reads) performed by the git routes are recorded in an explicit
event trace.
-/

namespace Viagen

/-! ## Model of the JS and Node path built-ins -/

/-- JS String.prototype.startsWith, modelled as a code-point prefix test on
the underlying character list. -/
def jsStartsWith (s pre : String) : Bool :=
  s.data.take pre.data.length == pre.data

/-- Lexicographic code-point comparison of character lists. -/
def charsLe : List Char → List Char → Bool
  | [], _ => true
  | _ :: _, [] => false
  | a :: as, b :: bs => if a = b then charsLe as bs else decide (a < b)

/-- The ascending string comparison used by the JS sorts of the sources:
the default string sort of Array.prototype.sort and the localeCompare
comparator are both modelled as lexicographic code-point order. -/
def jsStrLe (a b : String) : Bool :=
  charsLe a.data b.data

/-- Split a character list at every occurrence of a separator character.
This models JS String.prototype.split with a one-character separator, as
used by the sources for newline splitting, and the segment decomposition
used by the Node path module; the result is always non-empty and a
separator at either end contributes an empty segment. -/
def splitOnChar (sep : Char) : List Char → List String
  | [] => [""]
  | c :: rest =>
    if c = sep then "" :: splitOnChar sep rest
    else
      match splitOnChar sep rest with
      | s :: ss => String.mk (c :: s.data) :: ss
      | [] => [String.mk [c]]

/-- JS String.prototype.split with a one-character separator. -/
def jsSplit (s : String) (sep : Char) : List String :=
  splitOnChar sep s.data

/-- Path segments of a string, splitting at slashes. -/
def pathSegs (s : String) : List String :=
  splitOnChar '/' s.data

/-- JS Array.prototype.join with a separator, as used for assembling paths
and diff bodies. -/
def joinWith (sep : String) : List String → String
  | [] => ""
  | [s] => s
  | s :: rest => s ++ sep ++ joinWith sep rest

/-- One step of Node path normalization for an absolute path: empty and
single-dot segments are dropped, a double-dot segment pops the last kept
segment (and is dropped at the root), anything else is kept. -/
def normStep (acc : List String) (seg : String) : List String :=
  if seg = "" then acc
  else if seg = "." then acc
  else if seg = ".." then acc.dropLast
  else acc ++ [seg]

/-- Node path normalization of an absolute path, on its segment list. -/
def normSegsAbs (segs : List String) : List String :=
  segs.foldl normStep []

/-- Normalize a slash-separated string as an absolute path, the way Node
path.resolve and path.join do once the argument string is absolute. -/
def absNorm (s : String) : String :=
  "/" ++ joinWith "/" (normSegsAbs (pathSegs s))

/-- Node path.resolve(root, p) for an absolute root: an absolute second
argument wins, otherwise the two are joined, and the result is
normalized. -/
def resolvePath (root p : String) : String :=
  if jsStartsWith p "/" then absNorm p else absNorm (root ++ "/" ++ p)

/-- Node path.join(dir, name) for an absolute first argument. -/
def joinPath (dir name : String) : String :=
  absNorm (dir ++ "/" ++ name)

/-- Length of the common segment prefix of two normalized segment lists. -/
def commonPrefixLen : List String → List String → Nat
  | a :: as, b :: bs => if a = b then commonPrefixLen as bs + 1 else 0
  | _, _ => 0

/-- Node path.relative(from, to) for absolute arguments: drop the common
segment prefix, climb out of what remains of from, then descend into what
remains of to. -/
def relativePath (f t : String) : String :=
  let fs := normSegsAbs (pathSegs f)
  let ts := normSegsAbs (pathSegs t)
  let k := commonPrefixLen fs ts
  joinWith "/" (List.replicate (fs.length - k) ".." ++ ts.drop k)

/-! ## Model of the filesystem

A filesystem entry is a regular file, a directory with a list of named
entries, or something else (socket, fifo, symlink); stat is an oracle from
absolute paths to entries, where none models a failing stat call. -/

mutual
inductive FsTree where
  | file : FsTree
  | dir : FsEntries → FsTree
  | other : FsTree
inductive FsEntries where
  | nil : FsEntries
  | cons : String → FsTree → FsEntries → FsEntries
end

/-! ## Embedding of src/files.ts -/

mutual
/-- The loop body of collectFiles from src/files.ts: a plain file yields
its project-root-relative path, a directory recurses unless it is named
node_modules or .git, and an entry that is neither is skipped, as in the
source. -/
def collectEntry : String → FsTree → String → String → List String
  | name, FsTree.file, dir, projectRoot =>
    [relativePath projectRoot (joinPath dir name)]
  | name, FsTree.dir es, dir, projectRoot =>
    if name = "node_modules" ∨ name = ".git" then []
    else collectFiles es (joinPath dir name) projectRoot
  | _, FsTree.other, _, _ => []
/-- Embedding of collectFiles from src/files.ts: recursively collect all
files under a directory, returning paths relative to projectRoot. -/
def collectFiles : FsEntries → String → String → List String
  | FsEntries.nil, _, _ => []
  | FsEntries.cons name t rest, dir, projectRoot =>
    collectEntry name t dir projectRoot ++ collectFiles rest dir projectRoot
end

/-- Embedding of resolveEditablePatterns from src/files.ts. -/
def resolveEditablePatterns (patterns : List String) (projectRoot : String) : List String :=
  patterns.map (fun p => resolvePath projectRoot p)

/-- Contribution of a single resolved pattern to the editable file listing:
a directory is expanded recursively, a file contributes itself, and a
pattern that is absent from disk or is neither file nor directory
contributes nothing.  This is the loop body of resolveEditableFiles in
src/files.ts, with the stat failure branch modelled by the none case. -/
def patternContrib (stat : String → Option FsTree) (projectRoot abs : String) : List String :=
  match stat abs with
  | some (FsTree.dir es) => collectFiles es abs projectRoot
  | some FsTree.file => [relativePath projectRoot abs]
  | some FsTree.other => []
  | none => []

/-- First-occurrence deduplication of a string list, as produced by the JS
idiom of spreading a Set built from the list. -/
def dedupFirst : List String → List String → List String
  | [], _ => []
  | x :: rest, seen =>
    if x ∈ seen then dedupFirst rest seen
    else x :: dedupFirst rest (x :: seen)

/-- Embedding of resolveEditableFiles from src/files.ts: expand every
resolved pattern, deduplicate, and sort ascending.  The default JS string
sort compares code units, modelled by the code-point order on strings. -/
def resolveEditableFiles (stat : String → Option FsTree)
    (resolvedPatterns : List String) (projectRoot : String) : List String :=
  let files := resolvedPatterns.foldl
    (fun acc abs => acc ++ patternContrib stat projectRoot abs) []
  List.insertionSort (fun a b : String => jsStrLe a b = true) (dedupFirst files [])

/-- Embedding of isPathAllowed from src/files.ts: absolute requests are
rejected outright; otherwise the request is resolved against the project
root and tested for containment in some resolved pattern, where an
existing directory pattern demands a separator-terminated string prefix,
an existing non-directory pattern demands exact equality, and a pattern
whose stat fails is checked structurally with both tests. -/
def isPathAllowed (stat : String → Option FsTree) (requestedPath : String)
    (resolvedPatterns : List String) (projectRoot : String) : Bool :=
  if jsStartsWith requestedPath "/" then false
  else
    let abs := resolvePath projectRoot requestedPath
    resolvedPatterns.any (fun patternAbs =>
      match stat patternAbs with
      | some (FsTree.dir _) => jsStartsWith abs (patternAbs ++ "/")
      | some FsTree.file => abs == patternAbs
      | some FsTree.other => abs == patternAbs
      | none => jsStartsWith abs (patternAbs ++ "/") || abs == patternAbs)

/-- Containment of a resolved query path in one resolved pattern, written
from the words of the specification: for a directory pattern containment
means the resolved absolute path begins with the pattern plus a separator;
for a file pattern it means exact equality; for a pattern absent from disk
the same two structural tests are used as a fallback. -/
def specContains (stat : String → Option FsTree) (abs patternAbs : String) : Bool :=
  match stat patternAbs with
  | some (FsTree.dir _) => jsStartsWith abs (patternAbs ++ "/")
  | some FsTree.file => abs == patternAbs
  | some FsTree.other => abs == patternAbs
  | none => jsStartsWith abs (patternAbs ++ "/") || abs == patternAbs

/-! ## Embedding of src/git.ts

The git command-line interface behind simple-git is modelled as a record of
results: each operation either succeeds with a value or fails, matching the
promise rejections the source catches.  External effects are recorded as an
explicit trace of events. -/

/-- One entry of the ChangedFile list produced by the status route. -/
structure ChangedFile where
  path : String
  status : String
  insertions : Nat
  deletions : Nat
  deriving DecidableEq

/-- The part of the simple-git StatusResult consumed by mapStatus. -/
structure StatusResult where
  modified : List String
  created : List String
  deleted : List String
  renamed : List (String × String)
  not_added : List String

/-- One file of a diff summary, with the fields consumed by getDiffStats. -/
structure DiffFile where
  file : String
  binary : Bool
  insertions : Nat
  deletions : Nat

/-- The external world of the git routes: the repo root reported by the
repo-root discovery call, the results of the git status, diff-summary and
diff commands, and the readable file contents.  A failing value models a
rejected promise or a thrown filesystem error. -/
structure GitEnv where
  repoRoot : Except Unit String
  status : Except Unit StatusResult
  diffSummaryCached : Except Unit (List DiffFile)
  diffSummaryPlain : Except Unit (List DiffFile)
  diffCached : Option String → Except Unit String
  diffPlain : Option String → Except Unit String
  readF : String → Option String

/-- External effects performed by the git routes: the repo-root discovery
process call, a git diff process call (cached flag, optional path scope),
and a filesystem read. -/
inductive Eff where
  | revparse : Eff
  | gitDiff (cached : Bool) (path : Option String) : Eff
  | fsRead (path : String) : Eff
  deriving DecidableEq

/-- Per-file insertion and deletion counters, as a JS Map in insertion
order: lookup finds the first entry with the key. -/
def lookupStat : List (String × Nat × Nat) → String → Option (Nat × Nat)
  | [], _ => none
  | e :: rest, k => if e.1 = k then some e.2 else lookupStat rest k

/-- JS Map.prototype.set: update the entry in place if the key is present,
otherwise append it. -/
def setStat : List (String × Nat × Nat) → String → Nat × Nat → List (String × Nat × Nat)
  | [], k, v => [(k, v)]
  | e :: rest, k, v => if e.1 = k then (k, v) :: rest else e :: setStat rest k v

/-- The diff-summary accumulation loop of getDiffStats in src/git.ts:
non-binary files add their insertion and deletion counts to the per-path
running totals. -/
def accumSummary (m : List (String × Nat × Nat)) (files : List DiffFile) :
    List (String × Nat × Nat) :=
  files.foldl (fun m f =>
    if f.binary then m
    else
      let existing := (lookupStat m f.file).getD (0, 0)
      setStat m f.file (existing.1 + f.insertions, existing.2 + f.deletions)) m

/-- The untracked-file loop of getDiffStats in src/git.ts: for each
untracked path whose content can be read, record its split line count as
insertions and zero deletions; an unreadable file is skipped. -/
def addUntracked (m : List (String × Nat × Nat)) (readF : String → Option String)
    (repoRoot : String) (untracked : List String) : List (String × Nat × Nat) :=
  untracked.foldl (fun m filePath =>
    match readF (joinPath repoRoot filePath) with
    | some content => setStat m filePath ((jsSplit content '\n').length, 0)
    | none => m) m

/-- The result record of getDiffStats. -/
structure GitStats where
  stats : List (String × Nat × Nat)
  totalInsertions : Nat
  totalDeletions : Nat

/-- Embedding of getDiffStats from src/git.ts: if either diff summary
fails, everything degrades to empty stats; otherwise both summaries are
accumulated, untracked files are counted, and the totals are summed over
the map. -/
def getDiffStats (stagedR unstagedR : Except Unit (List DiffFile))
    (readF : String → Option String) (repoRoot : String)
    (untracked : List String) : GitStats :=
  match stagedR, unstagedR with
  | Except.ok staged, Except.ok unstaged =>
    let m := addUntracked (accumSummary (accumSummary [] staged) unstaged)
      readF repoRoot untracked
    ⟨m, (m.map (fun e => e.2.1)).sum, (m.map (fun e => e.2.2)).sum⟩
  | _, _ => ⟨[], 0, 0⟩

/-- The push closure of mapStatus in src/git.ts: build a ChangedFile from a
path and a status letter, taking counts from the stats map with a zero
default. -/
def pushEntry (stats : List (String × Nat × Nat)) (path status : String) : ChangedFile :=
  let s := (lookupStat stats path).getD (0, 0)
  ⟨path, status, s.1, s.2⟩

/-- The files array built by the five category loops of mapStatus, in
source order: modified, created, deleted, renamed under the destination
path, untracked. -/
def rawStatusFiles (result : StatusResult) (stats : List (String × Nat × Nat)) :
    List ChangedFile :=
  result.modified.map (fun f => pushEntry stats f "M")
  ++ result.created.map (fun f => pushEntry stats f "A")
  ++ result.deleted.map (fun f => pushEntry stats f "D")
  ++ result.renamed.map (fun r => pushEntry stats r.2 "R")
  ++ result.not_added.map (fun f => pushEntry stats f "?")

/-- The dedup filter of mapStatus: keep an entry only when its path was not
seen before. -/
def dedupByPath : List ChangedFile → List String → List ChangedFile
  | [], _ => []
  | f :: rest, seen =>
    if f.path ∈ seen then dedupByPath rest seen
    else f :: dedupByPath rest (f.path :: seen)

/-- Embedding of mapStatus from src/git.ts: union the five categories,
deduplicate by path with the first occurrence winning, and sort by path.
The localeCompare comparator of the source is modelled by the code-point
order on strings. -/
def mapStatus (result : StatusResult) (stats : List (String × Nat × Nat)) :
    List ChangedFile :=
  List.insertionSort (fun a b : ChangedFile => jsStrLe a.path b.path = true)
    (dedupByPath (rawStatusFiles result stats) [])

/-- Embedding of getFileDiff from src/git.ts, paired with its effect
trace: resolve the path, refuse to leave the repo root, then try the
staged diff, the unstaged diff, and finally synthesize an all-added diff
for an untracked file. -/
def getFileDiff (env : GitEnv) (repoRoot filePath : String) : String × List Eff :=
  let abs := resolvePath repoRoot filePath
  if ¬ (jsStartsWith abs (repoRoot ++ "/") = true) ∧ ¬ (abs = repoRoot) then ("", [])
  else
    match env.diffCached (some filePath) with
    | Except.error _ => ("", [Eff.gitDiff true (some filePath)])
    | Except.ok staged =>
      match env.diffPlain (some filePath) with
      | Except.error _ =>
        ("", [Eff.gitDiff true (some filePath), Eff.gitDiff false (some filePath)])
      | Except.ok unstaged =>
        let effs := [Eff.gitDiff true (some filePath), Eff.gitDiff false (some filePath)]
        if staged ≠ "" ∧ unstaged ≠ "" then (staged ++ "\n" ++ unstaged, effs)
        else if staged ≠ "" then (staged, effs)
        else if unstaged ≠ "" then (unstaged, effs)
        else
          match env.readF (joinPath repoRoot filePath) with
          | some content =>
            let lines := jsSplit content '\n'
            ("--- /dev/null\n+++ b/" ++ filePath ++ "\n@@ -0,0 +1," ++
              toString lines.length ++ " @@\n" ++
              joinWith "\n" (lines.map (fun l => "+" ++ l)),
             effs ++ [Eff.fsRead (joinPath repoRoot filePath)])
          | none => ("", effs ++ [Eff.fsRead (joinPath repoRoot filePath)])

/-- Embedding of findRepoRoot from src/git.ts: the trimmed output of the
repo-root discovery call, or none when the call fails. -/
def findRepoRoot (env : GitEnv) : Option String :=
  match env.repoRoot with
  | Except.ok r => some r.trim
  | Except.error _ => none

/-- Embedding of ensureGit from src/git.ts: reuse the cached repo root when
present, otherwise perform the discovery call, which is the recorded
effect. -/
def ensureGit (env : GitEnv) (cache : Option String) : Option String × List Eff :=
  match cache with
  | some r => (some r, [])
  | none => (findRepoRoot env, [Eff.revparse])

/-- JSON shape of a response of the status route.  A field that the source
does not put into the serialized object is modelled as none. -/
structure StatusResponse where
  files : List ChangedFile
  git : Bool
  insertionsField : Option Nat
  deletionsField : Option Nat
  deriving DecidableEq

/-- Embedding of the status route handler of src/git.ts: without a repo
root, or when the status call rejects, the degraded object carries only an
empty file list and a false git flag; otherwise the full shape is built
from mapStatus and getDiffStats. -/
def statusRoute (env : GitEnv) (cache : Option String) : StatusResponse :=
  match (ensureGit env cache).1 with
  | none => ⟨[], false, none, none⟩
  | some root =>
    match env.status with
    | Except.error _ => ⟨[], false, none, none⟩
    | Except.ok result =>
      let s := getDiffStats env.diffSummaryCached env.diffSummaryPlain
        env.readF root result.not_added
      ⟨mapStatus result s.stats, true, some s.totalInsertions, some s.totalDeletions⟩

/-- JSON shape of a response of the diff route.  A field that the source
does not put into the serialized object is modelled as none. -/
structure DiffResponse where
  errorField : Option String
  diffField : Option String
  pathField : Option String
  gitField : Option Bool
  deriving DecidableEq

/-- Embedding of the diff route handler of src/git.ts, returning the HTTP
status code, the response object and the effect trace.  The repo root is
ensured first; only then is a supplied absolute path rejected with a 400
client error; a path-scoped diff goes through getFileDiff, and a whole-tree
diff concatenates the staged and unstaged diffs with no untracked
synthesis.  A rejection of a whole-tree diff call is caught and degrades
to an empty diff object. -/
def diffRoute (env : GitEnv) (cache : Option String) (filePath : Option String) :
    Nat × DiffResponse × List Eff :=
  match ensureGit env cache with
  | (none, effs0) => (200, ⟨none, some "", none, some false⟩, effs0)
  | (some root, effs0) =>
    match filePath with
    | some p =>
      if jsStartsWith p "/" then
        (400, ⟨some "Absolute paths not allowed", none, none, none⟩, effs0)
      else
        let r := getFileDiff env root p
        (200, ⟨none, some r.1, some p, none⟩, effs0 ++ r.2)
    | none =>
      match env.diffCached none with
      | Except.error _ => (200, ⟨none, some "", none, none⟩, effs0 ++ [Eff.gitDiff true none])
      | Except.ok staged =>
        match env.diffPlain none with
        | Except.error _ =>
          (200, ⟨none, some "", none, none⟩,
           effs0 ++ [Eff.gitDiff true none, Eff.gitDiff false none])
        | Except.ok unstaged =>
          let combined :=
            if staged ≠ "" ∧ unstaged ≠ "" then staged ++ "\n" ++ unstaged
            else if staged ≠ "" then staged
            else if unstaged ≠ "" then unstaged
            else ""
          (200, ⟨none, some combined, none, none⟩,
           effs0 ++ [Eff.gitDiff true none, Eff.gitDiff false none])

/-! ## Predicates used by the clean-walk theorem -/

/-- A well-formed entry name as returned by a directory read: non-empty,
not one of the two dot names, and free of separators. -/
def SegOk (s : String) : Prop :=
  s ≠ "" ∧ s ≠ "." ∧ s ≠ ".." ∧ '/' ∉ s.data

/-- A segment that names neither the dependency cache nor the
version-control metadata directory. -/
def NotBad (s : String) : Prop :=
  s ≠ "node_modules" ∧ s ≠ ".git"

instance (s : String) : Decidable (SegOk s) := by
  unfold SegOk; infer_instance

instance (s : String) : Decidable (NotBad s) := by
  unfold NotBad; infer_instance

/-- A directory listing whose entry names are well formed and whose plain
files are not themselves named like the skipped directories; subdirectory
names are unconstrained because the walk filters them. -/
inductive Clean : FsEntries → Prop where
  | nil : Clean FsEntries.nil
  | consFile : ∀ (n : String) (rest : FsEntries),
      SegOk n → NotBad n → Clean rest → Clean (FsEntries.cons n FsTree.file rest)
  | consDir : ∀ (n : String) (es : FsEntries) (rest : FsEntries),
      SegOk n → Clean es → Clean rest → Clean (FsEntries.cons n (FsTree.dir es) rest)
  | consOther : ∀ (n : String) (rest : FsEntries),
      Clean rest → Clean (FsEntries.cons n FsTree.other rest)

/-! ## Lemmas about the string and path model -/

theorem string_data_append (a b : String) : (a ++ b).data = a.data ++ b.data := rfl

theorem string_mk_data (s : String) : String.mk s.data = s := rfl

theorem splitOnChar_ne_nil (sep : Char) (cs : List Char) : splitOnChar sep cs ≠ [] := by
  induction cs with
  | nil => simp [splitOnChar]
  | cons c rest ih =>
    simp only [splitOnChar]
    split
    · simp
    · split
      · simp
      · simp

theorem splitOnChar_append (sep : Char) (a b : List Char) :
    splitOnChar sep (a ++ sep :: b) = splitOnChar sep a ++ splitOnChar sep b := by
  induction a with
  | nil => simp [splitOnChar]
  | cons c a ih =>
    by_cases hc : c = sep
    · subst hc
      simp [splitOnChar, ih]
    · have hgoal : (c :: a) ++ sep :: b = c :: (a ++ sep :: b) := rfl
      rw [hgoal]
      simp only [splitOnChar, if_neg hc]
      rw [ih]
      cases h : splitOnChar sep a with
      | nil => exact absurd h (splitOnChar_ne_nil sep a)
      | cons s ss => simp

theorem not_sep_of_mem_splitOnChar (sep : Char) (cs : List Char) (s : String)
    (hs : s ∈ splitOnChar sep cs) : sep ∉ s.data := by
  induction cs generalizing s with
  | nil =>
    simp only [splitOnChar, List.mem_singleton] at hs
    subst hs; simp
  | cons c rest ih =>
    simp only [splitOnChar] at hs
    by_cases hc : c = sep
    · rw [if_pos hc] at hs
      rcases List.mem_cons.mp hs with h | h
      · subst h; simp
      · exact ih s h
    · rw [if_neg hc] at hs
      cases hsp : splitOnChar sep rest with
      | nil => exact absurd hsp (splitOnChar_ne_nil sep rest)
      | cons t ts =>
        rw [hsp] at hs
        rcases List.mem_cons.mp hs with h | h
        · subst h
          intro hmem
          rcases List.mem_cons.mp hmem with h1 | h1
          · exact hc h1.symm
          · exact ih t (by rw [hsp]; exact List.mem_cons_self t ts) h1
        · exact ih s (by rw [hsp]; exact List.mem_cons_of_mem t h)

theorem splitOnChar_of_not_mem (sep : Char) (cs : List Char) (h : sep ∉ cs) :
    splitOnChar sep cs = [String.mk cs] := by
  induction cs with
  | nil => rfl
  | cons c rest ih =>
    have hc : ¬ c = sep := fun e => h (e ▸ List.mem_cons_self c rest)
    have h2 : sep ∉ rest := fun hm => h (List.mem_cons_of_mem c hm)
    simp only [splitOnChar, if_neg hc, ih h2]

theorem pathSegs_append_sep (a b : String) :
    pathSegs (a ++ "/" ++ b) = pathSegs a ++ pathSegs b := by
  show splitOnChar '/' (a ++ "/" ++ b).data = _
  have h : (a ++ "/" ++ b).data = a.data ++ '/' :: b.data := by
    rw [string_data_append, string_data_append]
    show a.data ++ ['/'] ++ b.data = _
    simp
  rw [h, splitOnChar_append]
  rfl

theorem pathSegs_slash_cons (x : String) : pathSegs ("/" ++ x) = "" :: pathSegs x := by
  show splitOnChar '/' ("/" ++ x).data = _
  have h : ("/" ++ x).data = '/' :: x.data := rfl
  rw [h]
  simp [splitOnChar, pathSegs]

theorem pathSegs_of_no_slash (s : String) (h : '/' ∉ s.data) : pathSegs s = [s] := by
  show splitOnChar '/' s.data = [s]
  rw [splitOnChar_of_not_mem '/' s.data h, string_mk_data]

theorem pathSegs_joinWith (L : List String) (hne : L ≠ [])
    (hs : ∀ e ∈ L, '/' ∉ e.data) : pathSegs (joinWith "/" L) = L := by
  induction L with
  | nil => exact absurd rfl hne
  | cons s L ih =>
    cases L with
    | nil =>
      show pathSegs s = [s]
      exact pathSegs_of_no_slash s (hs s (List.mem_cons_self s []))
    | cons t L2 =>
      show pathSegs (s ++ "/" ++ joinWith "/" (t :: L2)) = s :: t :: L2
      rw [pathSegs_append_sep]
      rw [pathSegs_of_no_slash s (hs s (List.mem_cons_self s _))]
      rw [ih (by simp) (fun e he => hs e (List.mem_cons_of_mem s he))]
      rfl

theorem foldl_normStep_good (L : List String) :
    (∀ e ∈ L, e ≠ "" ∧ e ≠ "." ∧ e ≠ "..") →
    ∀ acc, List.foldl normStep acc L = acc ++ L := by
  induction L with
  | nil => intro _ acc; simp
  | cons e L ih =>
    intro h acc
    obtain ⟨h1, h2, h3⟩ := h e (List.mem_cons_self e L)
    simp only [List.foldl_cons, normStep, if_neg h1, if_neg h2, if_neg h3]
    rw [ih (fun x hx => h x (List.mem_cons_of_mem e hx))]
    simp

theorem mem_foldl_normStep (L : List String) :
    ∀ (acc : List String) (s : String), s ∈ List.foldl normStep acc L →
    s ∈ acc ∨ (s ∈ L ∧ s ≠ "" ∧ s ≠ "." ∧ s ≠ "..") := by
  induction L with
  | nil => intro acc s h; exact Or.inl h
  | cons e L ih =>
    intro acc s h
    simp only [List.foldl_cons] at h
    rcases ih (normStep acc e) s h with hacc | hL
    · unfold normStep at hacc
      by_cases h1 : e = ""
      · rw [if_pos h1] at hacc; exact Or.inl hacc
      · rw [if_neg h1] at hacc
        by_cases h2 : e = "."
        · rw [if_pos h2] at hacc; exact Or.inl hacc
        · rw [if_neg h2] at hacc
          by_cases h3 : e = ".."
          · rw [if_pos h3] at hacc
            exact Or.inl (List.dropLast_subset acc hacc)
          · rw [if_neg h3] at hacc
            rcases List.mem_append.mp hacc with h4 | h4
            · exact Or.inl h4
            · rw [List.mem_singleton] at h4
              subst h4
              exact Or.inr ⟨List.mem_cons_self s L, h1, h2, h3⟩
    · exact Or.inr ⟨List.mem_cons_of_mem e hL.1, hL.2⟩

theorem segOk_of_mem_normSegsAbs (u s : String)
    (h : s ∈ normSegsAbs (pathSegs u)) : SegOk s := by
  rcases mem_foldl_normStep (pathSegs u) [] s h with h0 | ⟨hm, h1, h2, h3⟩
  · simp at h0
  · exact ⟨h1, h2, h3, not_sep_of_mem_splitOnChar '/' u.data s hm⟩

theorem normSegsAbs_pathSegs_absNorm (u : String) :
    normSegsAbs (pathSegs (absNorm u)) = normSegsAbs (pathSegs u) := by
  have hok : ∀ s ∈ normSegsAbs (pathSegs u), SegOk s :=
    fun s hs => segOk_of_mem_normSegsAbs u s hs
  show normSegsAbs (pathSegs ("/" ++ joinWith "/" (normSegsAbs (pathSegs u)))) = _
  cases hL : normSegsAbs (pathSegs u) with
  | nil => rfl
  | cons a L2 =>
    rw [hL] at hok
    rw [pathSegs_slash_cons,
      pathSegs_joinWith (a :: L2) (by simp) (fun e he => (hok e he).2.2.2)]
    show List.foldl normStep (normStep [] "") (a :: L2) = a :: L2
    have h0 : normStep [] "" = ([] : List String) := rfl
    rw [h0,
      foldl_normStep_good (a :: L2)
        (fun e he => ⟨(hok e he).1, (hok e he).2.1, (hok e he).2.2.1⟩) []]
    rfl

theorem joinPath_segs (dir n : String) (hn : SegOk n) :
    normSegsAbs (pathSegs (joinPath dir n)) = normSegsAbs (pathSegs dir) ++ [n] := by
  show normSegsAbs (pathSegs (absNorm (dir ++ "/" ++ n))) = _
  rw [normSegsAbs_pathSegs_absNorm, pathSegs_append_sep,
    pathSegs_of_no_slash n hn.2.2.2]
  show List.foldl normStep [] (pathSegs dir ++ [n]) = _
  rw [List.foldl_append]
  show normStep (normSegsAbs (pathSegs dir)) n = _
  unfold normStep
  rw [if_neg hn.1, if_neg hn.2.1, if_neg hn.2.2.1]

theorem mem_relSegs (fs ts : List String) (s : String)
    (hts : ∀ e ∈ ts, '/' ∉ e.data)
    (h : s ∈ pathSegs (joinWith "/"
      (List.replicate (fs.length - commonPrefixLen fs ts) ".." ++
        List.drop (commonPrefixLen fs ts) ts))) :
    s = ".." ∨ s = "" ∨ s ∈ ts := by
  cases hMe : List.replicate (fs.length - commonPrefixLen fs ts) ".." ++
      List.drop (commonPrefixLen fs ts) ts with
  | nil =>
    rw [hMe] at h
    have h1 : pathSegs (joinWith "/" ([] : List String)) = [""] := rfl
    rw [h1, List.mem_singleton] at h
    exact Or.inr (Or.inl h)
  | cons a M2 =>
    have hsl : ∀ e ∈ List.replicate (fs.length - commonPrefixLen fs ts) ".." ++
        List.drop (commonPrefixLen fs ts) ts, '/' ∉ e.data := by
      intro e he
      rcases List.mem_append.mp he with h1 | h1
      · rw [List.eq_of_mem_replicate h1]
        simp
      · exact hts e (List.mem_of_mem_drop h1)
    rw [pathSegs_joinWith _ (by rw [hMe]; simp) hsl] at h
    rcases List.mem_append.mp h with h1 | h1
    · exact Or.inl (List.eq_of_mem_replicate h1)
    · exact Or.inr (Or.inr (List.mem_of_mem_drop h1))

theorem mem_pathSegs_relativePath (f t s : String)
    (h : s ∈ pathSegs (relativePath f t)) :
    s = ".." ∨ s = "" ∨ s ∈ normSegsAbs (pathSegs t) := by
  simp only [relativePath] at h
  exact mem_relSegs (normSegsAbs (pathSegs f)) (normSegsAbs (pathSegs t)) s
    (fun e he => (segOk_of_mem_normSegsAbs t e he).2.2.2) h

theorem jsStartsWith_self_append (s t : String) (ht : t ≠ "") :
    jsStartsWith s (s ++ t) = false := by
  unfold jsStartsWith
  rw [string_data_append]
  have hlen : s.data.length ≤ (s.data ++ t.data).length := by
    simp
  rw [List.take_of_length_le (by simp : s.data.length ≤ (s.data ++ t.data).length)]
  by_contra hby
  have heq : s.data = s.data ++ t.data := by
    have hb : (s.data == s.data ++ t.data) = true := by
      cases hbe : s.data == s.data ++ t.data
      · exact absurd hbe hby
      · rfl
    exact eq_of_beq hb
  have : t.data = [] := by
    have := congrArg List.length heq
    simp at this
    exact List.eq_nil_of_length_eq_zero this
  exact ht (by
    have h2 : t = String.mk t.data := rfl
    rw [h2, this])

/-- Every returned path of the recursive walk has only clean segments,
provided the walk starts below a directory whose normalized segments are
clean and the tree is clean. -/
theorem collectFiles_good (entries : FsEntries) (hc : Clean entries) :
    ∀ (dir root : String),
    (∀ s ∈ normSegsAbs (pathSegs dir), NotBad s) →
    ∀ p ∈ collectFiles entries dir root, ∀ s ∈ pathSegs p, NotBad s := by
  induction hc with
  | nil => intro dir root _ p hp; simp [collectFiles] at hp
  | consFile n rest hn hnb _ ih =>
    intro dir root hdir p hp s hs
    rw [collectFiles] at hp
    rcases List.mem_append.mp hp with h | h
    · rw [collectEntry, List.mem_singleton] at h
      subst h
      rcases mem_pathSegs_relativePath root (joinPath dir n) s hs with h1 | h1 | h1
      · subst h1; exact (by decide : NotBad "..")
      · subst h1; exact (by decide : NotBad "")
      · rw [joinPath_segs dir n hn] at h1
        rcases List.mem_append.mp h1 with h2 | h2
        · exact hdir s h2
        · rw [List.mem_singleton] at h2
          subst h2; exact hnb
    · exact ih dir root hdir p h s hs
  | consDir n es rest hn _ _ ihes ihrest =>
    intro dir root hdir p hp s hs
    rw [collectFiles] at hp
    rcases List.mem_append.mp hp with h | h
    · rw [collectEntry] at h
      by_cases hbad : n = "node_modules" ∨ n = ".git"
      · rw [if_pos hbad] at h
        simp at h
      · rw [if_neg hbad] at h
        have hnb : NotBad n := by
          constructor
          · intro e; exact hbad (Or.inl e)
          · intro e; exact hbad (Or.inr e)
        refine ihes (joinPath dir n) root ?_ p h s hs
        intro s2 hs2
        rw [joinPath_segs dir n hn] at hs2
        rcases List.mem_append.mp hs2 with h2 | h2
        · exact hdir s2 h2
        · rw [List.mem_singleton] at h2
          subst h2; exact hnb
    · exact ihrest dir root hdir p h s hs
  | consOther n rest _ ih =>
    intro dir root hdir p hp s hs
    rw [collectFiles] at hp
    rcases List.mem_append.mp hp with h | h
    · rw [collectEntry] at h
      simp at h
    · exact ih dir root hdir p h s hs

/-! ## Lemmas about the stats map and the status list -/

theorem lookupStat_setStat_self (m : List (String × Nat × Nat)) (k : String) (v : Nat × Nat) :
    lookupStat (setStat m k v) k = some v := by
  induction m with
  | nil => simp [setStat, lookupStat]
  | cons e rest ih =>
    by_cases he : e.1 = k
    · simp [setStat, lookupStat, he]
    · simp [setStat, lookupStat, he, ih]

theorem lookupStat_setStat_ne (m : List (String × Nat × Nat)) (k k2 : String)
    (v : Nat × Nat) (h : k2 ≠ k) : lookupStat (setStat m k v) k2 = lookupStat m k2 := by
  induction m with
  | nil => simp [setStat, lookupStat, Ne.symm h]
  | cons e rest ih =>
    by_cases he : e.1 = k
    · simp [setStat, lookupStat, he, Ne.symm h]
    · simp [setStat, lookupStat, he, ih]

theorem accumSummary_not_mem (files : List DiffFile) (f : String)
    (h : ∀ df ∈ files, df.file ≠ f) :
    ∀ m, lookupStat (accumSummary m files) f = lookupStat m f := by
  induction files with
  | nil => intro m; rfl
  | cons df files ih =>
    intro m
    have hdf : df.file ≠ f := h df (List.mem_cons_self df files)
    have hrest : ∀ x ∈ files, x.file ≠ f := fun x hx => h x (List.mem_cons_of_mem df hx)
    show lookupStat (accumSummary _ files) f = _
    rw [ih hrest]
    by_cases hb : df.binary
    · simp [hb]
    · simp only [hb, if_false, Bool.false_eq_true]
      exact lookupStat_setStat_ne m df.file f _ (fun e => hdf e.symm)

theorem addUntracked_not_mem (readF : String → Option String) (root f : String)
    (untracked : List String) (h : f ∉ untracked) :
    ∀ m, lookupStat (addUntracked m readF root untracked) f = lookupStat m f := by
  induction untracked with
  | nil => intro m; rfl
  | cons g rest ih =>
    intro m
    have hg : g ≠ f := fun e => h (e ▸ List.mem_cons_self g rest)
    have hrest : f ∉ rest := fun hm => h (List.mem_cons_of_mem g hm)
    show lookupStat (addUntracked _ readF root rest) f = _
    rw [ih hrest]
    cases hr : readF (joinPath root g) with
    | none => simp [hr]
    | some c =>
      simp only [hr]
      exact lookupStat_setStat_ne m g f _ (fun e => hg e.symm)

theorem addUntracked_read_ok (readF : String → Option String) (root f c : String)
    (untracked : List String) (hm : f ∈ untracked)
    (hr : readF (joinPath root f) = some c) :
    ∀ m, lookupStat (addUntracked m readF root untracked) f =
      some ((jsSplit c '\n').length, 0) := by
  induction untracked with
  | nil => simp at hm
  | cons g rest ih =>
    intro m
    by_cases hfr : f ∈ rest
    · exact ih hfr _
    · have hfg : f = g := by
        rcases List.mem_cons.mp hm with h | h
        · exact h
        · exact absurd h hfr
      subst hfg
      show lookupStat (addUntracked _ readF root rest) f = _
      rw [addUntracked_not_mem readF root f rest hfr]
      simp only [hr]
      exact lookupStat_setStat_self m f _

theorem addUntracked_read_fails (readF : String → Option String) (root f : String)
    (untracked : List String) (hr : readF (joinPath root f) = none) :
    ∀ m, lookupStat (addUntracked m readF root untracked) f = lookupStat m f := by
  induction untracked with
  | nil => intro m; rfl
  | cons g rest ih =>
    intro m
    show lookupStat (addUntracked _ readF root rest) f = _
    rw [ih]
    cases hg : readF (joinPath root g) with
    | none => simp [hg]
    | some c =>
      simp only [hg]
      have hgf : g ≠ f := by
        intro e
        rw [e, hr] at hg
        exact Option.noConfusion hg
      exact lookupStat_setStat_ne m g f _ (fun e => hgf e.symm)

theorem pushEntry_path (stats : List (String × Nat × Nat)) (p st : String) :
    (pushEntry stats p st).path = p := rfl

theorem find?_map_path_ne {α : Type} (l : List α) (mk : α → ChangedFile) (p : String)
    (h : ∀ x ∈ l, (mk x).path ≠ p) :
    (l.map mk).find? (fun g => g.path == p) = none := by
  induction l with
  | nil => rfl
  | cons x l ih =>
    have hx : ((mk x).path == p) = false :=
      beq_eq_false_iff_ne.mpr (h x (List.mem_cons_self x l))
    simp only [List.map_cons, List.find?_cons, hx]
    exact ih (fun y hy => h y (List.mem_cons_of_mem x hy))

theorem find?_map_pushEntry (ns : List String) (stats : List (String × Nat × Nat))
    (st p : String) (h : p ∈ ns) :
    (ns.map (fun x => pushEntry stats x st)).find? (fun g => g.path == p) =
      some (pushEntry stats p st) := by
  induction ns with
  | nil => simp at h
  | cons x ns ih =>
    by_cases hx : x = p
    · subst hx
      simp only [List.map_cons, List.find?_cons, pushEntry_path, beq_self_eq_true]
    · have hne : ((pushEntry stats x st).path == p) = false :=
        beq_eq_false_iff_ne.mpr (by rw [pushEntry_path]; exact hx)
      simp only [List.map_cons, List.find?_cons, hne]
      rcases List.mem_cons.mp h with h1 | h1
      · exact absurd h1.symm hx
      · exact ih h1

theorem find?_append_of_none {α : Type} (l1 l2 : List α) (q : α → Bool)
    (h : l1.find? q = none) : (l1 ++ l2).find? q = l2.find? q := by
  induction l1 with
  | nil => rfl
  | cons a l1 ih =>
    cases hq : q a with
    | true => rw [List.find?_cons_of_pos l1 hq] at h; exact Option.noConfusion h
    | false =>
      rw [List.find?_cons_of_neg l1 (by simp [hq])] at h
      rw [List.cons_append, List.find?_cons_of_neg _ (by simp [hq])]
      exact ih h

theorem mem_dedupByPath (l : List ChangedFile) :
    ∀ (seen : List String) (f : ChangedFile),
    f ∈ dedupByPath l seen ↔
      f.path ∉ seen ∧ l.find? (fun g => g.path == f.path) = some f := by
  induction l with
  | nil => intro seen f; simp [dedupByPath]
  | cons g rest ih =>
    intro seen f
    by_cases hseen : g.path ∈ seen
    · rw [dedupByPath, if_pos hseen, ih seen f]
      constructor
      · rintro ⟨h1, h2⟩
        refine ⟨h1, ?_⟩
        have hne : (g.path == f.path) = false :=
          beq_eq_false_iff_ne.mpr (fun e => h1 (e ▸ hseen))
        rw [List.find?_cons_of_neg _ (by simp [hne])]
        exact h2
      · rintro ⟨h1, h2⟩
        refine ⟨h1, ?_⟩
        have hne : (g.path == f.path) = false :=
          beq_eq_false_iff_ne.mpr (fun e => h1 (e ▸ hseen))
        rw [List.find?_cons_of_neg _ (by simp [hne])] at h2
        exact h2
    · rw [dedupByPath, if_neg hseen]
      by_cases hfg : f = g
      · subst hfg
        simp only [List.mem_cons, true_or, true_iff]
        refine ⟨hseen, ?_⟩
        rw [List.find?_cons_of_pos _ (by simp)]
      · constructor
        · intro hmem
          rcases List.mem_cons.mp hmem with h1 | h1
          · exact absurd h1 hfg
          · have h2 := (ih (g.path :: seen) f).mp h1
            have hne : f.path ≠ g.path := by
              intro e
              exact h2.1 (e ▸ List.mem_cons_self g.path seen)
            refine ⟨fun hs => h2.1 (List.mem_cons_of_mem _ hs), ?_⟩
            rw [List.find?_cons_of_neg _
              (by simp [beq_eq_false_iff_ne.mpr (fun e => hne e.symm)])]
            exact h2.2
        · rintro ⟨h1, h2⟩
          by_cases hpath : g.path = f.path
          · rw [List.find?_cons_of_pos _ (by simp [hpath])] at h2
            have : g = f := Option.some.inj h2
            exact absurd this.symm hfg
          · rw [List.find?_cons_of_neg _ (by simp [hpath])] at h2
            refine List.mem_cons_of_mem g ((ih (g.path :: seen) f).mpr ⟨?_, h2⟩)
            intro hm
            rcases List.mem_cons.mp hm with h3 | h3
            · exact hpath h3.symm
            · exact h1 h3

theorem charsLe_iff (x y : List Char) :
    charsLe x y = true ↔ ¬ List.Lex (fun a b : Char => a < b) y x := by
  induction x generalizing y with
  | nil =>
    constructor
    · intro _ hlt
      cases hlt
    · intro _
      rfl
  | cons a as ih =>
    cases y with
    | nil =>
      constructor
      · intro h
        exact absurd h (by simp [charsLe])
      · intro h
        exact absurd List.Lex.nil h
    | cons b bs =>
      by_cases hab : a = b
      · subst hab
        have hstep : charsLe (a :: as) (a :: bs) = charsLe as bs := by
          simp [charsLe]
        rw [hstep, ih bs]
        constructor
        · intro h hlt
          cases hlt with
          | cons h3 => exact h h3
          | rel h1 => exact absurd h1 (lt_irrefl a)
        · intro h hlt
          exact h (List.Lex.cons hlt)
      · have hstep : charsLe (a :: as) (b :: bs) = decide (a < b) := by
          simp [charsLe, hab]
        rw [hstep]
        simp only [decide_eq_true_eq]
        constructor
        · intro hlt hc
          cases hc with
          | cons h3 => exact hab rfl
          | rel h1 => exact absurd (lt_trans hlt h1) (lt_irrefl a)
        · intro h
          rcases lt_or_gt_of_ne hab with hlt | hgt
          · exact hlt
          · exact absurd
              (show List.Lex (fun a b : Char => a < b) (b :: bs) (a :: as) from
                List.Lex.rel hgt) h

theorem jsStrLe_iff (a b : String) : jsStrLe a b = true ↔ a ≤ b := by
  rw [← not_lt, String.lt_iff_toList_lt]
  show charsLe a.data b.data = true ↔
    ¬ List.Lex (fun a b : Char => a < b) b.toList a.toList
  exact charsLe_iff a.data b.data

instance : IsTotal ChangedFile (fun a b => jsStrLe a.path b.path = true) := by
  constructor
  intro a b
  rcases le_total a.path b.path with h | h
  · exact Or.inl ((jsStrLe_iff a.path b.path).mpr h)
  · exact Or.inr ((jsStrLe_iff b.path a.path).mpr h)

instance : IsTrans ChangedFile (fun a b => jsStrLe a.path b.path = true) := by
  constructor
  intro a b c h1 h2
  exact (jsStrLe_iff a.path c.path).mpr
    (le_trans ((jsStrLe_iff a.path b.path).mp h1) ((jsStrLe_iff b.path c.path).mp h2))

theorem mem_mapStatus (result : StatusResult) (stats : List (String × Nat × Nat))
    (f : ChangedFile) :
    f ∈ mapStatus result stats ↔
      (rawStatusFiles result stats).find? (fun g => g.path == f.path) = some f := by
  rw [mapStatus, List.mem_insertionSort, mem_dedupByPath]
  simp

theorem dedupByPath_nodup (l : List ChangedFile) :
    ∀ seen : List String, ((dedupByPath l seen).map (fun f => f.path)).Nodup := by
  induction l with
  | nil => intro seen; simp [dedupByPath]
  | cons g rest ih =>
    intro seen
    by_cases hseen : g.path ∈ seen
    · rw [dedupByPath, if_pos hseen]; exact ih seen
    · rw [dedupByPath, if_neg hseen]
      rw [List.map_cons, List.nodup_cons]
      refine ⟨?_, ih (g.path :: seen)⟩
      intro hmem
      rcases List.mem_map.mp hmem with ⟨f, hf, hfp⟩
      have h2 := (mem_dedupByPath rest (g.path :: seen) f).mp hf
      exact h2.1 (hfp ▸ List.mem_cons_self g.path seen)

theorem mem_foldl_append {α β : Type} (g : α → List β) (l : List α) :
    ∀ (acc : List β) (b : β), b ∈ l.foldl (fun acc x => acc ++ g x) acc →
    b ∈ acc ∨ ∃ x ∈ l, b ∈ g x := by
  induction l with
  | nil => intro acc b h; exact Or.inl h
  | cons x l ih =>
    intro acc b h
    rcases ih (acc ++ g x) b h with h1 | ⟨y, hy, hby⟩
    · rcases List.mem_append.mp h1 with h2 | h2
      · exact Or.inl h2
      · exact Or.inr ⟨x, List.mem_cons_self x l, h2⟩
    · exact Or.inr ⟨y, List.mem_cons_of_mem x hy, hby⟩

theorem mem_dedupFirst (l : List String) :
    ∀ (seen : List String) (p : String), p ∈ dedupFirst l seen → p ∈ l := by
  induction l with
  | nil => intro seen p h; simp [dedupFirst] at h
  | cons x l ih =>
    intro seen p h
    rw [dedupFirst] at h
    by_cases hx : x ∈ seen
    · rw [if_pos hx] at h
      exact List.mem_cons_of_mem x (ih seen p h)
    · rw [if_neg hx] at h
      rcases List.mem_cons.mp h with h1 | h1
      · exact h1 ▸ List.mem_cons_self x l
      · exact List.mem_cons_of_mem x (ih (x :: seen) p h1)

/-! ## Concrete fixtures used by witnesses and counterexamples -/

/-- A filesystem with a single allowed directory pattern on disk. -/
def docsFs : String → Option FsTree := fun s =>
  if s = "/proj/docs" then some (FsTree.dir FsEntries.nil) else none

/-- A filesystem where the configured pattern itself is a directory named
node_modules containing one file. -/
def nmPatternFs : String → Option FsTree := fun s =>
  if s = "/proj/node_modules" then
    some (FsTree.dir (FsEntries.cons "a.js" FsTree.file FsEntries.nil))
  else none

/-- A filesystem where a clean directory pattern contains a plain file
named node_modules. -/
def nmFileFs : String → Option FsTree := fun s =>
  if s = "/proj/src" then
    some (FsTree.dir (FsEntries.cons "node_modules" FsTree.file FsEntries.nil))
  else none

/-- A filesystem with a clean source directory. -/
def cleanFs : String → Option FsTree := fun s =>
  if s = "/proj/src" then
    some (FsTree.dir (FsEntries.cons "a.ts" FsTree.file FsEntries.nil))
  else none

/-- A git environment in which the repo-root discovery call fails and every
git operation fails. -/
def noRepoEnv : GitEnv :=
  { repoRoot := Except.error ()
  , status := Except.error ()
  , diffSummaryCached := Except.error ()
  , diffSummaryPlain := Except.error ()
  , diffCached := fun _ => Except.error ()
  , diffPlain := fun _ => Except.error ()
  , readF := fun _ => none }

/-! ## The claims -/

/-- C1: for every requested path that begins with a path-root marker,
isPathAllowed returns false for every filesystem state, pattern
configuration and project root; since the result is independent of the
filesystem oracle and the patterns, the rejection precedes any containment
test. -/
theorem isPathAllowed_absolute_rejected
    (stat : String → Option FsTree) (requestedPath : String)
    (resolvedPatterns : List String) (projectRoot : String)
    (h : jsStartsWith requestedPath "/" = true) :
    isPathAllowed stat requestedPath resolvedPatterns projectRoot = false := by
  simp [isPathAllowed, h]

theorem isPathAllowed_absolute_rejected_witness :
    jsStartsWith "/etc/passwd" "/" = true ∧
    isPathAllowed (fun _ => none) "/etc/passwd" ["/proj/docs"] "/proj" = false :=
  ⟨by decide,
    isPathAllowed_absolute_rejected (fun _ => none) "/etc/passwd" ["/proj/docs"]
      "/proj" (by decide)⟩

/-- C2: for a relative query, isPathAllowed agrees with the containment
test written from the specification, pattern by pattern: an existing
directory pattern demands the separator-terminated prefix, an existing
file pattern demands equality, and an absent pattern falls back to the
same structural tests; consequently a path inside an allowed directory is
allowed and a sibling outside it is not. -/
theorem isPathAllowed_containment_spec :
    (∀ (stat : String → Option FsTree) (q : String) (pats : List String) (root : String),
      jsStartsWith q "/" = false →
      isPathAllowed stat q pats root =
        pats.any (fun patternAbs => specContains stat (resolvePath root q) patternAbs))
    ∧ isPathAllowed docsFs "docs/a.txt" ["/proj/docs"] "/proj" = true
    ∧ isPathAllowed docsFs "other/a.txt" ["/proj/docs"] "/proj" = false := by
  refine ⟨?_, by decide, by decide⟩
  intro stat q pats root h
  simp only [isPathAllowed, h, Bool.false_eq_true, if_false]
  rfl

theorem isPathAllowed_containment_spec_witness :
    jsStartsWith "docs/a.txt" "/" = false ∧
    isPathAllowed docsFs "docs/a.txt" ["/proj/docs"] "/proj" =
      List.any ["/proj/docs"] (fun patternAbs =>
        specContains docsFs (resolvePath "/proj" "docs/a.txt") patternAbs) :=
  ⟨by decide,
    isPathAllowed_containment_spec.1 docsFs "docs/a.txt" ["/proj/docs"] "/proj"
      (by decide)⟩

/-- C10: when the single configured pattern exists on disk as a directory,
a relative query that resolves exactly to the pattern path is rejected,
because only strict descendants pass the separator-terminated prefix
test; when the same pattern is absent from disk, the identical query is
allowed through the structural equality fallback. -/
theorem isPathAllowed_pattern_root_boundary
    (statD statA : String → Option FsTree) (pat root q : String) (es : FsEntries)
    (hq : jsStartsWith q "/" = false)
    (habs : resolvePath root q = pat)
    (hd : statD pat = some (FsTree.dir es))
    (ha : statA pat = none) :
    isPathAllowed statD q [pat] root = false ∧
    isPathAllowed statA q [pat] root = true := by
  constructor
  · simp only [isPathAllowed, hq, Bool.false_eq_true, if_false, List.any_cons,
      List.any_nil, hd, habs, Bool.or_false]
    exact jsStartsWith_self_append pat "/" (by decide)
  · simp only [isPathAllowed, hq, Bool.false_eq_true, if_false, List.any_cons,
      List.any_nil, ha, habs, Bool.or_false]
    simp

theorem isPathAllowed_pattern_root_boundary_witness :
    (jsStartsWith "docs" "/" = false ∧ resolvePath "/proj" "docs" = "/proj/docs" ∧
      docsFs "/proj/docs" = some (FsTree.dir FsEntries.nil) ∧
      (fun _ : String => (none : Option FsTree)) "/proj/docs" = none) ∧
    isPathAllowed docsFs "docs" ["/proj/docs"] "/proj" = false ∧
    isPathAllowed (fun _ => none) "docs" ["/proj/docs"] "/proj" = true :=
  ⟨⟨by decide, by decide, rfl, rfl⟩,
    isPathAllowed_pattern_root_boundary docsFs (fun _ => none) "/proj/docs" "/proj"
      "docs" FsEntries.nil (by decide) (by decide) rfl rfl⟩

/-- C4 counterexample: the editable listing can return paths containing a
node_modules segment, in two ways the claim does not except: when the
configured pattern itself is a directory named node_modules, and when a
walked directory contains a plain file named node_modules (only
subdirectories with that name are skipped). -/
theorem listEditableFiles_bad_segment_cx :
    ("node_modules" ∈ pathSegs "node_modules/a.js" ∧
      resolveEditableFiles nmPatternFs ["/proj/node_modules"] "/proj" =
        ["node_modules/a.js"])
    ∧ ("node_modules" ∈ pathSegs "src/node_modules" ∧
      resolveEditableFiles nmFileFs ["/proj/src"] "/proj" = ["src/node_modules"]) := by
  decide

/-- C4 amended: no path returned by the editable listing contains a
node_modules or .git segment, provided the configured pattern paths
themselves contain no such segment and the walked trees have well-formed
entry names with no plain file named node_modules or .git; subdirectories
so named are skipped at every depth, which is what makes the conclusion
hold for the walked part of every path. -/
theorem resolveEditableFiles_no_bad_segments
    (stat : String → Option FsTree) (pats : List String) (root : String)
    (hpats : ∀ pat ∈ pats, (∀ s ∈ normSegsAbs (pathSegs pat), NotBad s) ∧
      (∀ es, stat pat = some (FsTree.dir es) → Clean es)) :
    ∀ p ∈ resolveEditableFiles stat pats root, ∀ s ∈ pathSegs p, NotBad s := by
  intro p hp s hs
  simp only [resolveEditableFiles] at hp
  rw [List.mem_insertionSort] at hp
  have h3 := mem_dedupFirst _ [] p hp
  rcases mem_foldl_append (patternContrib stat root) pats [] p h3 with h4 | ⟨pat, hpat, hmem⟩
  · simp at h4
  · unfold patternContrib at hmem
    cases hstat : stat pat with
    | none =>
      rw [hstat] at hmem
      simp at hmem
    | some t =>
      cases t with
      | file =>
        rw [hstat] at hmem
        rw [List.mem_singleton] at hmem
        subst hmem
        rcases mem_pathSegs_relativePath root pat s hs with h1 | h1 | h1
        · subst h1; exact (by decide : NotBad "..")
        · subst h1; exact (by decide : NotBad "")
        · exact (hpats pat hpat).1 s h1
      | dir es =>
        rw [hstat] at hmem
        exact collectFiles_good es ((hpats pat hpat).2 es hstat) pat root
          (hpats pat hpat).1 p hmem s hs
      | other =>
        rw [hstat] at hmem
        simp at hmem

theorem resolveEditableFiles_no_bad_segments_witness :
    ("src/a.ts" ∈ resolveEditableFiles cleanFs ["/proj/src"] "/proj") ∧
    ("src" ∈ pathSegs "src/a.ts") ∧ NotBad "src" ∧ NotBad "a.ts" := by
  have hpats : ∀ pat ∈ ["/proj/src"],
      (∀ s ∈ normSegsAbs (pathSegs pat), NotBad s) ∧
      (∀ es, cleanFs pat = some (FsTree.dir es) → Clean es) := by
    intro pat hpat
    rw [List.mem_singleton] at hpat
    subst hpat
    refine ⟨by decide, ?_⟩
    intro es h
    have h2 : some (FsTree.dir (FsEntries.cons "a.ts" FsTree.file FsEntries.nil)) =
        some (FsTree.dir es) := h
    injection h2 with h3
    injection h3 with h4
    subst h4
    exact Clean.consFile "a.ts" FsEntries.nil (by decide) (by decide) Clean.nil
  refine ⟨by decide, by decide, ?_, ?_⟩
  · exact resolveEditableFiles_no_bad_segments cleanFs ["/proj/src"] "/proj" hpats
      "src/a.ts" (by decide) "src" (by decide)
  · exact resolveEditableFiles_no_bad_segments cleanFs ["/proj/src"] "/proj" hpats
      "src/a.ts" (by decide) "a.ts" (by decide)

/-- A git environment with a repository, a successful status call with one
modified and one untracked file, empty diff summaries, and a readable
untracked file. -/
def okStatusEnv : GitEnv :=
  { repoRoot := Except.ok "/repo"
  , status := Except.ok ⟨["m.txt"], [], [], [], ["u.txt"]⟩
  , diffSummaryCached := Except.ok []
  , diffSummaryPlain := Except.ok []
  , diffCached := fun _ => Except.error ()
  , diffPlain := fun _ => Except.error ()
  , readF := fun s => if s = "/repo/u.txt" then some "x\ny" else none }

/-- C5: when the repo-root discovery fails (no repository, or the tool
fails), the status route answers with an empty file list and a false git
flag and the diff route answers with an empty diff and a false git flag;
both handlers are total functions of the environment, so no error
propagates to the caller. -/
theorem gitRoutes_degrade_no_repo (env : GitEnv) (fp : Option String) (u : Unit)
    (h : env.repoRoot = Except.error u) :
    statusRoute env none = ⟨[], false, none, none⟩ ∧
    diffRoute env none fp =
      (200, ⟨none, some "", none, some false⟩, [Eff.revparse]) := by
  constructor
  · simp [statusRoute, ensureGit, findRepoRoot, h]
  · simp [diffRoute, ensureGit, findRepoRoot, h]

theorem gitRoutes_degrade_no_repo_witness :
    noRepoEnv.repoRoot = Except.error () ∧
    statusRoute noRepoEnv none = ⟨[], false, none, none⟩ ∧
    diffRoute noRepoEnv none (some "a.txt") =
      (200, ⟨none, some "", none, some false⟩, [Eff.revparse]) :=
  ⟨rfl, (gitRoutes_degrade_no_repo noRepoEnv (some "a.txt") () rfl).1,
    (gitRoutes_degrade_no_repo noRepoEnv (some "a.txt") () rfl).2⟩

/-- C9 counterexample: in the not-a-repository case, the status route
response carries only the file list and the git flag; the insertions and
deletions fields are absent, refuting the claim that every response of the
operation has all four fields. -/
theorem statusRoute_missing_fields_cx :
    (statusRoute noRepoEnv none).git = false ∧
    (statusRoute noRepoEnv none).insertionsField = none ∧
    (statusRoute noRepoEnv none).deletionsField = none := by
  decide

/-- C9 amended: a status response with a true git flag always carries both
counter fields, present and non-negative by construction; a response with
a false git flag is exactly the degraded two-field object with the empty
file list, with both counter fields absent. -/
theorem statusRoute_shape (env : GitEnv) (cache : Option String) :
    ((statusRoute env cache).git = true →
      ∃ i d, (statusRoute env cache).insertionsField = some i ∧
        (statusRoute env cache).deletionsField = some d)
    ∧ ((statusRoute env cache).git = false →
      statusRoute env cache = ⟨[], false, none, none⟩) := by
  unfold statusRoute
  cases h1 : (ensureGit env cache).1 with
  | none => simp
  | some root =>
    cases h2 : env.status with
    | error e => simp
    | ok result => simp

theorem statusRoute_shape_witness :
    (statusRoute okStatusEnv (some "/repo")).git = true ∧
    ∃ i d, (statusRoute okStatusEnv (some "/repo")).insertionsField = some i ∧
      (statusRoute okStatusEnv (some "/repo")).deletionsField = some d :=
  ⟨by decide, (statusRoute_shape okStatusEnv (some "/repo")).1 (by decide)⟩

/-- C3 counterexample: a diff request for the absolute path /etc/passwd
against a fresh server outside any repository is answered with the
degraded 200 response and no error field, not a client error, and the
handler has already performed the repo-root discovery process call before
looking at the path. -/
theorem diffRoute_absolute_cx :
    (diffRoute noRepoEnv none (some "/etc/passwd")).1 = 200 ∧
    (diffRoute noRepoEnv none (some "/etc/passwd")).2.1.errorField = none ∧
    Eff.revparse ∈ (diffRoute noRepoEnv none (some "/etc/passwd")).2.2 := by
  decide

/-- C3 amended: whenever a repo root is available, cached or freshly
discovered, a diff request whose path begins with a path-root marker is
answered with a 400 client error, and the only effect the handler may have
performed is the repo-root discovery call itself: no git diff call and no
filesystem read occurs.  When no repo root is discoverable the request is
answered with the degraded response instead of a client error. -/
theorem diffRoute_absolute_client_error (env : GitEnv) (cache : Option String)
    (p root : String) (hr : (ensureGit env cache).1 = some root)
    (hp : jsStartsWith p "/" = true) :
    diffRoute env cache (some p) =
      (400, ⟨some "Absolute paths not allowed", none, none, none⟩,
        (ensureGit env cache).2)
    ∧ ∀ e ∈ (diffRoute env cache (some p)).2.2, e = Eff.revparse := by
  cases cache with
  | some c =>
    constructor
    · simp [diffRoute, ensureGit, hp]
    · intro e he
      simp [diffRoute, ensureGit, hp] at he
  | none =>
    have hf : findRepoRoot env = some root := hr
    constructor
    · simp [diffRoute, ensureGit, hf, hp]
    · intro e he
      simp [diffRoute, ensureGit, hf, hp] at he
      exact he

theorem diffRoute_absolute_client_error_witness :
    (ensureGit noRepoEnv (some "/repo")).1 = some "/repo" ∧
    jsStartsWith "/etc/passwd" "/" = true ∧
    diffRoute noRepoEnv (some "/repo") (some "/etc/passwd") =
      (400, ⟨some "Absolute paths not allowed", none, none, none⟩, []) := by
  refine ⟨rfl, by decide, ?_⟩
  exact (diffRoute_absolute_client_error noRepoEnv (some "/repo") "/etc/passwd"
    "/repo" rfl (by decide)).1

/-- C8: the status list is the union of the five git-status categories in
source order, with renames recorded under the destination path,
deduplicated by path with the first occurrence winning, and sorted
ascending by path in lexicographic order: the output is pairwise sorted by
path, its paths are pairwise distinct, and an entry belongs to the output
exactly when it is the first entry of the raw category union bearing its
path. -/
theorem mapStatus_spec (result : StatusResult) (stats : List (String × Nat × Nat)) :
    (mapStatus result stats).Pairwise (fun a b => a.path ≤ b.path)
    ∧ ((mapStatus result stats).map (fun f => f.path)).Nodup
    ∧ ∀ f : ChangedFile, f ∈ mapStatus result stats ↔
        (rawStatusFiles result stats).find? (fun g => g.path == f.path) = some f := by
  refine ⟨?_, ?_, fun f => mem_mapStatus result stats f⟩
  · have hs := List.sorted_insertionSort
      (fun a b : ChangedFile => jsStrLe a.path b.path = true)
      (dedupByPath (rawStatusFiles result stats) [])
    exact List.Pairwise.imp (fun h => (jsStrLe_iff _ _).mp h) hs
  · have hperm := List.perm_insertionSort
      (fun a b : ChangedFile => jsStrLe a.path b.path = true)
      (dedupByPath (rawStatusFiles result stats) [])
    exact (List.Perm.nodup_iff (hperm.map (fun f => f.path))).mpr
      (dedupByPath_nodup (rawStatusFiles result stats) [])

/-- C7: for a path-scoped diff whose resolved path stays inside the repo
root and whose two git diff calls succeed: if both diffs are non-empty the
result is the staged diff, a newline, and the unstaged diff; if exactly
one is non-empty, the result is that one; if both are empty and the file
content is readable, the result is the synthesized unified diff whose
header starts with the /dev/null marker and whose body prefixes every
split line of the content with a plus sign. -/
theorem getFileDiff_cases (env : GitEnv) (root p staged unstaged : String)
    (hin : jsStartsWith (resolvePath root p) (root ++ "/") = true)
    (hs : env.diffCached (some p) = Except.ok staged)
    (hu : env.diffPlain (some p) = Except.ok unstaged) :
    (staged ≠ "" → unstaged ≠ "" →
      (getFileDiff env root p).1 = staged ++ "\n" ++ unstaged)
    ∧ (staged ≠ "" → unstaged = "" → (getFileDiff env root p).1 = staged)
    ∧ (staged = "" → unstaged ≠ "" → (getFileDiff env root p).1 = unstaged)
    ∧ (staged = "" → unstaged = "" →
      ∀ content, env.readF (joinPath root p) = some content →
      (getFileDiff env root p).1 =
        "--- /dev/null\n+++ b/" ++ p ++ "\n@@ -0,0 +1," ++
          toString (jsSplit content '\n').length ++ " @@\n" ++
          joinWith "\n" ((jsSplit content '\n').map (fun l => "+" ++ l))) := by
  refine ⟨?_, ?_, ?_, ?_⟩
  · intro h1 h2
    simp [getFileDiff, hin, hs, hu, h1, h2]
  · intro h1 h2
    simp [getFileDiff, hin, hs, hu, h1, h2]
  · intro h1 h2
    simp [getFileDiff, hin, hs, hu, h1, h2]
  · intro h1 h2 content hcread
    simp [getFileDiff, hin, hs, hu, h1, h2, hcread]

/-- An environment whose path-scoped diff calls succeed for one file with
a non-empty staged and unstaged diff. -/
def fileDiffEnv : GitEnv :=
  { noRepoEnv with
    diffCached := fun q => if q = some "a.txt" then Except.ok "S" else Except.error ()
  , diffPlain := fun q => if q = some "a.txt" then Except.ok "U" else Except.error () }

theorem getFileDiff_cases_witness :
    jsStartsWith (resolvePath "/repo" "a.txt") ("/repo" ++ "/") = true ∧
    fileDiffEnv.diffCached (some "a.txt") = Except.ok "S" ∧
    fileDiffEnv.diffPlain (some "a.txt") = Except.ok "U" ∧
    (getFileDiff fileDiffEnv "/repo" "a.txt").1 = "S" ++ "\n" ++ "U" := by
  refine ⟨by decide, rfl, rfl, ?_⟩
  exact (getFileDiff_cases fileDiffEnv "/repo" "a.txt" "S" "U" (by decide) rfl rfl).1
    (by decide) (by decide)

/-- C6: an untracked file whose content reads successfully is recorded in
the diff stats with insertions equal to its split line count and zero
deletions, and, when it does not also appear in an earlier status
category, its entry in the status list carries those counts with the
question-mark status; when the read fails and the file occurs in neither
diff summary, it contributes no stats but still appears in the status
list with the question-mark status and zero counts. -/
theorem status_untracked_stats (staged unstaged : List DiffFile)
    (readF : String → Option String) (root f : String) (untracked : List String)
    (result : StatusResult)
    (hna : result.not_added = untracked) (hf : f ∈ untracked)
    (hm : f ∉ result.modified) (hc : f ∉ result.created) (hd : f ∉ result.deleted)
    (hren : ∀ r ∈ result.renamed, r.2 ≠ f) :
    (∀ c, readF (joinPath root f) = some c →
      lookupStat (getDiffStats (Except.ok staged) (Except.ok unstaged) readF root
        untracked).stats f = some ((jsSplit c '\n').length, 0)
      ∧ ChangedFile.mk f "?" ((jsSplit c '\n').length) 0 ∈
          mapStatus result (getDiffStats (Except.ok staged) (Except.ok unstaged)
            readF root untracked).stats)
    ∧ (readF (joinPath root f) = none →
      (∀ df ∈ staged ++ unstaged, df.file ≠ f) →
      lookupStat (getDiffStats (Except.ok staged) (Except.ok unstaged) readF root
        untracked).stats f = none
      ∧ ChangedFile.mk f "?" 0 0 ∈
          mapStatus result (getDiffStats (Except.ok staged) (Except.ok unstaged)
            readF root untracked).stats) := by
  have hstats : (getDiffStats (Except.ok staged) (Except.ok unstaged) readF root
      untracked).stats =
      addUntracked (accumSummary (accumSummary [] staged) unstaged) readF root
        untracked := rfl
  have hfind : ∀ stats2 : List (String × Nat × Nat),
      (rawStatusFiles result stats2).find? (fun g => g.path == f) =
        some (pushEntry stats2 f "?") := by
    intro stats2
    have hM : (result.modified.map (fun x => pushEntry stats2 x "M")).find?
        (fun g => g.path == f) = none :=
      find?_map_path_ne result.modified _ f (fun x hx => by
        rw [pushEntry_path]
        exact fun e => hm (e ▸ hx))
    have hA : (result.created.map (fun x => pushEntry stats2 x "A")).find?
        (fun g => g.path == f) = none :=
      find?_map_path_ne result.created _ f (fun x hx => by
        rw [pushEntry_path]
        exact fun e => hc (e ▸ hx))
    have hD : (result.deleted.map (fun x => pushEntry stats2 x "D")).find?
        (fun g => g.path == f) = none :=
      find?_map_path_ne result.deleted _ f (fun x hx => by
        rw [pushEntry_path]
        exact fun e => hd (e ▸ hx))
    have hR : (result.renamed.map (fun r => pushEntry stats2 r.2 "R")).find?
        (fun g => g.path == f) = none :=
      find?_map_path_ne result.renamed _ f (fun r hr => by
        rw [pushEntry_path]
        exact hren r hr)
    have hX1 := (find?_append_of_none _ _ (fun g : ChangedFile => g.path == f) hM).trans hA
    have hX2 := (find?_append_of_none _ _ (fun g : ChangedFile => g.path == f) hX1).trans hD
    have hX3 := (find?_append_of_none _ _ (fun g : ChangedFile => g.path == f) hX2).trans hR
    show ((((result.modified.map (fun x => pushEntry stats2 x "M")
      ++ result.created.map (fun x => pushEntry stats2 x "A"))
      ++ result.deleted.map (fun x => pushEntry stats2 x "D"))
      ++ result.renamed.map (fun r => pushEntry stats2 r.2 "R"))
      ++ result.not_added.map (fun x => pushEntry stats2 x "?")).find?
        (fun g => g.path == f) = some (pushEntry stats2 f "?")
    exact (find?_append_of_none _ _ (fun g : ChangedFile => g.path == f) hX3).trans
      (find?_map_pushEntry result.not_added stats2 "?" f (by rw [hna]; exact hf))
  constructor
  · intro c hcread
    have hlook : lookupStat (getDiffStats (Except.ok staged) (Except.ok unstaged)
        readF root untracked).stats f = some ((jsSplit c '\n').length, 0) := by
      rw [hstats]
      exact addUntracked_read_ok readF root f c untracked hf hcread _
    refine ⟨hlook, ?_⟩
    rw [mem_mapStatus]
    have hpe : pushEntry ((getDiffStats (Except.ok staged) (Except.ok unstaged)
        readF root untracked).stats) f "?" =
        ChangedFile.mk f "?" ((jsSplit c '\n').length) 0 := by
      simp [pushEntry, hlook]
    rw [← hpe]
    exact hfind _
  · intro hn hsum
    have hlook : lookupStat (getDiffStats (Except.ok staged) (Except.ok unstaged)
        readF root untracked).stats f = none := by
      rw [hstats, addUntracked_read_fails readF root f untracked hn]
      rw [accumSummary_not_mem unstaged f
        (fun df hdf => hsum df (List.mem_append.mpr (Or.inr hdf)))]
      rw [accumSummary_not_mem staged f
        (fun df hdf => hsum df (List.mem_append.mpr (Or.inl hdf)))]
      rfl
    refine ⟨hlook, ?_⟩
    rw [mem_mapStatus]
    have hpe : pushEntry ((getDiffStats (Except.ok staged) (Except.ok unstaged)
        readF root untracked).stats) f "?" = ChangedFile.mk f "?" 0 0 := by
      simp [pushEntry, hlook]
    rw [← hpe]
    exact hfind _

theorem status_untracked_stats_witness :
    lookupStat (getDiffStats (Except.ok []) (Except.ok [])
      (fun s => if s = "/repo/u.txt" then some "x\ny" else none) "/repo"
      ["u.txt"]).stats "u.txt" = some (2, 0)
    ∧ ChangedFile.mk "u.txt" "?" 2 0 ∈
        mapStatus ⟨["m.txt"], [], [], [], ["u.txt"]⟩
          (getDiffStats (Except.ok []) (Except.ok [])
            (fun s => if s = "/repo/u.txt" then some "x\ny" else none) "/repo"
            ["u.txt"]).stats := by
  have h := (status_untracked_stats [] []
    (fun s => if s = "/repo/u.txt" then some "x\ny" else none) "/repo" "u.txt"
    ["u.txt"] ⟨["m.txt"], [], [], [], ["u.txt"]⟩ rfl (by decide) (by decide)
    (by decide) (by decide) (by simp)).1 "x\ny" (by decide)
  exact ⟨h.1, h.2⟩

end Viagen
